import Mathlib

/-!
Shallow embedding of the plot interaction pipeline of the `egui_plot` fork:
the interval/bound algebra (`src/egui_plot/src/bound.rs`), the action queue
and deterministic reducer (`src/egui_plot/src/action.rs`,
`src/egui_plot/src/collect_events.rs`) and the columnar series constructors
(`src/egui_plot/src/items/columnar_series.rs`), together with theorems about
the testable properties of the specification.

Finite `f64` values are embedded as exact rationals; the non-finite values
(NaN and the two infinities) are explicit constructors of `F64`.  All
comparisons the source performs on finite floats are exact, so they are
modelled by the rational order; rounding of arithmetic is not modelled.
-/

namespace EguiPlot

/-- Model of an `f64` value: NaN, an infinity, or an exact finite value. -/
inductive F64 where
  | nan : F64
  | negInf : F64
  | posInf : F64
  | finite (q : ℚ) : F64
deriving DecidableEq

/-- Model of `f64::is_finite`. -/
def F64.is_finite : F64 → Bool
  | .finite _ => true
  | _ => false

/-- Model of IEEE `f64` addition on the embedded values: NaN propagates,
opposite infinities give NaN, an infinity absorbs finite values, and finite
addition is exact. -/
def F64.add : F64 → F64 → F64
  | .nan, _ => .nan
  | _, .nan => .nan
  | .posInf, .negInf => .nan
  | .negInf, .posInf => .nan
  | .posInf, _ => .posInf
  | _, .posInf => .posInf
  | .negInf, _ => .negInf
  | _, .negInf => .negInf
  | .finite a, .finite b => .finite (a + b)

/-- Model of `f64` negation. -/
def F64.neg : F64 → F64
  | .nan => .nan
  | .posInf => .negInf
  | .negInf => .posInf
  | .finite q => .finite (-q)

/-- Model of `f64` subtraction, as addition of the negation. -/
def F64.sub (a b : F64) : F64 :=
  a.add b.neg

/-- Division of an embedded `f64` by a finite rational scale factor.
Only used by the spec-modelled `PlotBounds::zoom`; the zero-factor case is
left at NaN since the spec constrains zoom factors to be meaningful
(positive) scales. -/
def F64.divQ (a : F64) (f : ℚ) : F64 :=
  if f = 0 then .nan
  else
    match a with
    | .nan => .nan
    | .posInf => if 0 < f then .posInf else .negInf
    | .negInf => if 0 < f then .negInf else .posInf
    | .finite q => .finite (q / f)

/-- Whether a finite endpoint is open or closed (`EndKind` in `bound.rs`). -/
inductive EndKind where
  | Open : EndKind
  | Closed : EndKind
deriving DecidableEq

/-- A numeric bound that can be finite or (semi-)infinite (`Bound` in
`bound.rs`).  Per the algebra's contract, NaN never enters the finite slot,
so the finite payload is an exact rational. -/
inductive Bound where
  | NegInf : Bound
  | Finite (v : ℚ) (k : EndKind) : Bound
  | PosInf : Bound
deriving DecidableEq

/-- Model of `Bound::closed`. -/
def Bound.closed (v : ℚ) : Bound :=
  .Finite v .Closed

/-- Model of `Bound::open`. -/
def Bound.open' (v : ℚ) : Bound :=
  .Finite v .Open

/-- The ordering key `(sign-class, value, closedness)` of `Bound::cmp_key`.
In the source the middle component of the infinite keys is the matching
`f64` infinity; the sign class already separates those keys from all others
and two equal infinities compare equal, so a zero placeholder preserves the
order exactly. -/
structure CmpKey where
  sign : Int
  value : ℚ
  closed : Int
deriving DecidableEq

/-- Model of `Bound::cmp_key`. -/
def Bound.cmp_key : Bound → CmpKey
  | .NegInf => ⟨-1, 0, 0⟩
  | .Finite v .Open => ⟨0, v, 0⟩
  | .Finite v .Closed => ⟨0, v, 1⟩
  | .PosInf => ⟨1, 0, 0⟩

/-- Lexicographic strict order on comparison keys, the order Rust derives
for the `(i8, f64, i8)` tuple on NaN-free values. -/
def keyLt (a b : CmpKey) : Bool :=
  decide (a.sign < b.sign) ||
    (a.sign == b.sign && (decide (a.value < b.value) ||
      (a.value == b.value && decide (a.closed < b.closed))))

/-- Lexicographic non-strict order on comparison keys. -/
def keyLe (a b : CmpKey) : Bool :=
  decide (a.sign < b.sign) ||
    (a.sign == b.sign && (decide (a.value < b.value) ||
      (a.value == b.value && decide (a.closed ≤ b.closed))))

/-- A numeric interval with optional openness and infinity on either side
(`Interval` in `bound.rs`).  The `end` field is renamed `end_` because `end`
is reserved in Lean. -/
structure Interval where
  start : Bound
  end_ : Bound
deriving DecidableEq

/-- Model of `Interval::normalize`: swap the bounds when the start key is
strictly greater than the end key. -/
def Interval.normalize (I : Interval) : Interval :=
  if keyLt I.end_.cmp_key I.start.cmp_key then ⟨I.end_, I.start⟩ else I

/-- Model of `Interval::new`: build and normalize. -/
def Interval.new (start end_ : Bound) : Interval :=
  Interval.normalize ⟨start, end_⟩

/-- Model of `Interval::closed`. -/
def Interval.closed (a b : ℚ) : Interval :=
  Interval.new (Bound.closed a) (Bound.closed b)

/-- Model of `Interval::open`. -/
def Interval.open' (a b : ℚ) : Interval :=
  Interval.new (Bound.open' a) (Bound.open' b)

/-- Model of `Interval::open_closed`. -/
def Interval.open_closed (a b : ℚ) : Interval :=
  Interval.new (Bound.open' a) (Bound.closed b)

/-- Model of `Interval::closed_open`. -/
def Interval.closed_open (a b : ℚ) : Interval :=
  Interval.new (Bound.closed a) (Bound.open' b)

/-- Model of `Interval::below`. -/
def Interval.below (b : ℚ) (kind : EndKind) : Interval :=
  Interval.new .NegInf (.Finite b kind)

/-- Model of `Interval::above`. -/
def Interval.above (a : ℚ) (kind : EndKind) : Interval :=
  Interval.new (.Finite a kind) .PosInf

/-- Model of `Interval::all`. -/
def Interval.all : Interval :=
  Interval.new .NegInf .PosInf

/-- The `left_ok` test of `Interval::contains`, applied to the start bound
and a finite probe. -/
def leftOk : Bound → ℚ → Bool
  | .NegInf, _ => true
  | .Finite v .Closed, x => decide (v ≤ x)
  | .Finite v .Open, x => decide (v < x)
  | .PosInf, _ => false

/-- The `right_ok` test of `Interval::contains`, applied to the end bound
and a finite probe. -/
def rightOk : Bound → ℚ → Bool
  | .PosInf, _ => true
  | .Finite v .Closed, x => decide (x ≤ v)
  | .Finite v .Open, x => decide (x < v)
  | .NegInf, _ => false

/-- Model of `Interval::contains`: the early `return false` on a non-finite
probe becomes the catch-all match arm. -/
def Interval.contains (I : Interval) (x : F64) : Bool :=
  match x with
  | .finite xv => leftOk I.start xv && rightOk I.end_ xv
  | _ => false

/-- Model of `Interval::is_empty`. -/
def Interval.is_empty (I : Interval) : Bool :=
  match I.start, I.end_ with
  | .Finite a sa, .Finite b sb =>
      if a < b then false
      else if b < a then true
      else sa == .Open || sb == .Open
  | .PosInf, _ => true
  | _, .NegInf => true
  | _, _ => false

/-- Model of `Interval::intersect`: normalize both operands, take the
key-maximal start and key-minimal end, return none when empty. -/
def Interval.intersect (self other : Interval) : Option Interval :=
  let s := self.normalize
  let o := other.normalize
  let start := if keyLe o.start.cmp_key s.start.cmp_key then s.start else o.start
  let end_ := if keyLe s.end_.cmp_key o.end_.cmp_key then s.end_ else o.end_
  let out : Interval := ⟨start, end_⟩
  if out.is_empty then none else some out

/-- Modelled from the spec: the viewport bounds type `PlotBounds` of the
`transform` module, which is not among the provided sources (only its
callers are).  Per §3 it is a rectangular region of the data plane with
independent min/max per axis, each possibly infinite; the call sites in
`collect_events.rs` show the representation is a min pair and a max pair of
`f64` values indexed x then y. -/
structure PlotBounds where
  min : F64 × F64
  max : F64 × F64
deriving DecidableEq

/-- Modelled from the spec: `PlotBounds::NOTHING`, the "sentinel
empty-bounds value" / "canonical empty value" of §4.4 — the empty region
that extending with content grows from, with min at plus infinity and max
at minus infinity on both axes. -/
def PlotBounds.NOTHING : PlotBounds :=
  ⟨(.posInf, .posInf), (.negInf, .negInf)⟩

/-- Modelled from the spec: `PlotBounds::translate` of the missing
`transform` module; §4.2: "translate by a plot-space delta vector" shifts
both the min and the max corner by the delta. -/
def PlotBounds.translate (b : PlotBounds) (d : F64 × F64) : PlotBounds :=
  ⟨(b.min.1.add d.1, b.min.2.add d.2), (b.max.1.add d.1, b.max.2.add d.2)⟩

/-- Modelled from the spec: `PlotBounds::zoom` of the missing `transform`
module; §4.2: "zoom by a per-axis factor around a plot-space pivot point
(factor > 1 shrinks the visible extent ... the pivot point stays visually
fixed)" — each corner moves to pivot + (corner - pivot) / factor. -/
def PlotBounds.zoom (b : PlotBounds) (factor : ℚ × ℚ) (center : ℚ × ℚ) : PlotBounds :=
  let cx : F64 := .finite center.1
  let cy : F64 := .finite center.2
  ⟨(cx.add ((b.min.1.sub cx).divQ factor.1), cy.add ((b.min.2.sub cy).divQ factor.2)),
   (cx.add ((b.max.1.sub cx).divQ factor.1), cy.add ((b.max.2.sub cy).divQ factor.2))⟩

/-- Model of `BoundsChangeCause` from `action.rs`. -/
inductive BoundsChangeCause where
  | Programmatic : BoundsChangeCause
  | Pan : BoundsChangeCause
  | Zoom : BoundsChangeCause
  | AxisZoomX : BoundsChangeCause
  | AxisZoomY : BoundsChangeCause
  | BoxZoom : BoundsChangeCause
  | Reset : BoundsChangeCause
  | AutoFit : BoundsChangeCause
  | LinkSync : BoundsChangeCause
deriving DecidableEq

/-- Model of `PlotEvent` from `action.rs`, restricted to the variants whose
payloads are internal to the core (`PlotBounds` and causes).  The remaining
variants (keyboard, pointer, gesture lifecycle, legend, pins) carry only
host-input payload types and are never constructed by any embedded
function; they play no role in the claims about the reducer. -/
inductive PlotEvent where
  | BoundsChanged (old new_ : PlotBounds) (cause : BoundsChangeCause) : PlotEvent
  | TransformChanged (old new_ : PlotBounds) (cause : BoundsChangeCause) : PlotEvent
  | AutoFitApplied (new_ : PlotBounds) : PlotEvent
deriving DecidableEq

/-- Model of `PlotAction<I>` from `action.rs`.  `RangeInclusive of f64`,
`Vec2`, `Vec2b` and `PlotPoint` become pairs; the external `egui::Shape`
payload is an opaque type parameter `S`. -/
inductive PlotAction (I S : Type) where
  | AddItem (item : I) : PlotAction I S
  | SetBoundsX (range : ℚ × ℚ) : PlotAction I S
  | SetBoundsY (range : ℚ × ℚ) : PlotAction I S
  | Translate (delta : ℚ × ℚ) : PlotAction I S
  | SetAutoBounds (v : Bool × Bool) : PlotAction I S
  | Zoom (factor : ℚ × ℚ) (center : ℚ × ℚ) : PlotAction I S
  | AddOverlayShape (shape : S) : PlotAction I S

/-- Model of `PlotAction::as_event` from `collect_events.rs`. -/
def PlotAction.as_event {I S : Type} : PlotAction I S → Option PlotEvent
  | .SetBoundsX range =>
      some (.BoundsChanged PlotBounds.NOTHING
        ⟨(.finite range.1, .negInf), (.finite range.2, .posInf)⟩ .Programmatic)
  | .SetBoundsY range =>
      some (.BoundsChanged PlotBounds.NOTHING
        ⟨(.negInf, .finite range.1), (.posInf, .finite range.2)⟩ .Programmatic)
  | .Translate _ => none
  | .Zoom _ _ => none
  | .SetAutoBounds _ => none
  | .AddOverlayShape _ => none
  | .AddItem _ => none

/-- Model of `ActionQueue<I>` from `action.rs`: the `VecDeque` is a list in
front-to-back order. -/
structure ActionQueue (I S : Type) where
  actions : List (PlotAction I S)

/-- Model of `ActionQueue::drain`: moves the actions out in order. -/
def ActionQueue.drain {I S : Type} (q : ActionQueue I S) : List (PlotAction I S) :=
  q.actions

/-- Model of `AppliedActions<I, B>` from `action.rs`. -/
structure AppliedActions (I S B : Type) where
  items : List I
  auto_bounds : Bool × Bool
  bounds : B
  overlays : List S
  events : List PlotEvent

/-- Model of the `BoundsLike` adapter trait from `action.rs`; mutation in
place becomes returning the updated value. -/
class BoundsLike (B : Type) where
  set_x_range : B → ℚ × ℚ → B
  set_y_range : B → ℚ × ℚ → B
  translate : B → F64 → F64 → B
  zoom : B → ℚ × ℚ → ℚ × ℚ → B

/-- Model of `impl BoundsLike for PlotBounds` from `action.rs`: the range
setters overwrite one axis of min/max, translate and zoom delegate to the
inherent (spec-modelled) `PlotBounds` operations. -/
instance : BoundsLike PlotBounds where
  set_x_range b r := ⟨(.finite r.1, b.min.2), (.finite r.2, b.max.2)⟩
  set_y_range b r := ⟨(b.min.1, .finite r.1), (b.max.1, .finite r.2)⟩
  translate b dx dy := b.translate (dx, dy)
  zoom b factor center := b.zoom factor center

/-- The event accumulation at the top of the reducer loop: push the
action's direct event, if any. -/
def pushEvent {I S : Type} (events : List PlotEvent) (a : PlotAction I S) :
    List PlotEvent :=
  match a.as_event with
  | some ev => events ++ [ev]
  | none => events

/-- Marker for the reducer; `ActionExecutor` is a unit struct in the
source. -/
structure ActionExecutor where

/-- The body of the `for action in queue.drain()` loop of
`ActionExecutor::apply`, with the accumulated vectors and the mutable
`bounds`/`auto_bounds` state as explicit arguments. -/
def ActionExecutor.applyGo {I S B : Type} [BoundsLike B] :
    List (PlotAction I S) → B → Bool × Bool → List I → List S →
      List PlotEvent → AppliedActions I S B
  | [], bounds, ab, items, overlays, events =>
      ⟨items, ab, bounds, overlays, events⟩
  | a :: rest, bounds, ab, items, overlays, events =>
      let events := pushEvent events a
      match a with
      | .AddItem item =>
          ActionExecutor.applyGo rest bounds ab (items ++ [item]) overlays events
      | .SetBoundsX range =>
          ActionExecutor.applyGo rest (BoundsLike.set_x_range bounds range)
            (false, ab.2) items overlays events
      | .SetBoundsY range =>
          ActionExecutor.applyGo rest (BoundsLike.set_y_range bounds range)
            (ab.1, false) items overlays events
      | .Translate delta =>
          ActionExecutor.applyGo rest
            (BoundsLike.translate bounds (.finite delta.1) (.finite delta.2))
            (false, false) items overlays events
      | .SetAutoBounds v =>
          ActionExecutor.applyGo rest bounds v items overlays events
      | .Zoom factor center =>
          ActionExecutor.applyGo rest (BoundsLike.zoom bounds factor center)
            (false, false) items overlays events
      | .AddOverlayShape shape =>
          ActionExecutor.applyGo rest bounds ab items (overlays ++ [shape]) events

/-- Model of `ActionExecutor::apply` from `collect_events.rs`.  The two
ignored parameters `_last_transform` and `_response` are kept for
signature fidelity. -/
def ActionExecutor.apply {I S B : Type} [BoundsLike B] (queue : ActionQueue I S)
    (bounds : B) (auto_bounds : Bool × Bool) (_lastTransform : Option Unit)
    (_response : Option Unit) : AppliedActions I S B :=
  ActionExecutor.applyGo queue.drain bounds auto_bounds [] [] []

/-- Model of `ColumnarSeries` from `items/columnar_series.rs`: two borrowed
`f64` slices become two lists of embedded floats. -/
structure ColumnarSeries where
  xs : List F64
  ys : List F64
deriving DecidableEq

/-- Model of `ColumnarSeries::new`; the `assert!` panic on mismatched
lengths is embedded as returning `none`. -/
def ColumnarSeries.new (xs ys : List F64) : Option ColumnarSeries :=
  if xs.length = ys.length then some ⟨xs, ys⟩ else none

/-- Model of `ColumnarSeries::new_truncating`: slice both inputs down to
the shorter length; total, never panics. -/
def ColumnarSeries.new_truncating (xs ys : List F64) : ColumnarSeries :=
  let n := Nat.min xs.length ys.length
  ⟨xs.take n, ys.take n⟩

/-- A point satisfying both endpoint tests witnesses non-emptiness. -/
lemma is_empty_false_of_ok (s e : Bound) (x : ℚ) (hl : leftOk s x = true)
    (hr : rightOk e x = true) : Interval.is_empty ⟨s, e⟩ = false := by
  cases s with
  | NegInf =>
    cases e with
    | NegInf => simp [rightOk] at hr
    | PosInf => rfl
    | Finite b sb => rfl
  | PosInf => simp [leftOk] at hl
  | Finite a sa =>
    cases e with
    | NegInf => simp [rightOk] at hr
    | PosInf => rfl
    | Finite b sb =>
      have hab : ¬ b < a := by
        cases sa <;> cases sb <;> simp [leftOk, rightOk] at hl hr <;> linarith
      cases sa <;> cases sb <;>
        simp only [leftOk, rightOk, decide_eq_true_eq] at hl hr <;>
        · simp only [Interval.is_empty]
          rcases lt_trichotomy a b with h1 | h1 | h1
          · simp [h1]
          · subst h1
            simp only [if_neg (lt_irrefl a), if_neg hab]
            first
            | (exfalso; linarith)
            | rfl
          · exact absurd h1 hab

/-- A non-empty interval is already normalized: the start key is not
strictly greater than the end key. -/
lemma normalize_eq_of_not_empty (I : Interval) (h : I.is_empty = false) :
    I.normalize = I := by
  obtain ⟨s, e⟩ := I
  cases s with
  | NegInf =>
    cases e with
    | NegInf => simp [Interval.is_empty] at h
    | PosInf => simp [Interval.normalize, keyLt, Bound.cmp_key]
    | Finite b sb =>
      cases sb <;> simp [Interval.normalize, keyLt, Bound.cmp_key]
  | PosInf => simp [Interval.is_empty] at h
  | Finite a sa =>
    cases e with
    | NegInf => simp [Interval.is_empty] at h
    | PosInf =>
      cases sa <;> simp [Interval.normalize, keyLt, Bound.cmp_key]
    | Finite b sb =>
      simp only [Interval.is_empty] at h
      rcases lt_trichotomy a b with h1 | h1 | h1
      · have hn : ¬ b < a := by linarith
        cases sa <;> cases sb <;>
          simp [Interval.normalize, keyLt, Bound.cmp_key, hn, ne_of_gt h1]
      · subst h1
        simp only [if_neg (lt_irrefl a)] at h
        cases sa <;> cases sb <;> simp_all [Interval.normalize, keyLt, Bound.cmp_key]
      · simp [if_neg (asymm h1), if_pos h1] at h

/-- Key order is reflexive. -/
lemma keyLe_refl (k : CmpKey) : keyLe k k = true := by
  simp [keyLe]

/-- C4: a non-empty interval intersected with itself yields itself, which
is also its own normalized form (non-empty intervals are already
normalized, so the claim's two readings coincide). -/
theorem C4_intersect_self (I : Interval) (h : I.is_empty = false) :
    I.intersect I = some I ∧ I.normalize = I := by
  have hn := normalize_eq_of_not_empty I h
  refine ⟨?_, hn⟩
  simp only [Interval.intersect, hn, keyLe_refl, if_pos, h, if_neg]
  rfl

/-- C4 witness: the closed unit interval self-intersects to itself. -/
theorem C4_intersect_self_witness :
    (Interval.closed 0 1).intersect (Interval.closed 0 1) = some (Interval.closed 0 1) :=
  (C4_intersect_self (Interval.closed 0 1) (by decide)).1

/-- C5: an empty interval contains no finite value. -/
theorem C5_empty_contains_nothing (I : Interval) (h : I.is_empty = true) :
    ∀ q : ℚ, I.contains (.finite q) = false := by
  intro q
  cases hl : leftOk I.start q with
  | false => simp [Interval.contains, hl]
  | true =>
    cases hr : rightOk I.end_ q with
    | false => simp [Interval.contains, hl, hr]
    | true =>
      have := is_empty_false_of_ok I.start I.end_ q hl hr
      rw [show (⟨I.start, I.end_⟩ : Interval) = I from rfl] at this
      rw [this] at h
      exact absurd h (by simp)

/-- C5 witness: the open degenerate interval at 1 is empty and does not
contain 0. -/
theorem C5_empty_contains_nothing_witness :
    (Interval.open' 1 1).contains (.finite 0) = false :=
  C5_empty_contains_nothing (Interval.open' 1 1) (by decide) 0

/-- C6: with finite a less-or-equal b, both endpoints of the closed
interval are contained and neither endpoint of the open interval is. -/
theorem C6_endpoint_membership (a b : ℚ) (h : a ≤ b) :
    (Interval.closed a b).contains (.finite a) = true
    ∧ (Interval.closed a b).contains (.finite b) = true
    ∧ (Interval.open' a b).contains (.finite a) = false
    ∧ (Interval.open' a b).contains (.finite b) = false := by
  have hn : ¬ b < a := not_lt.mpr h
  refine ⟨?_, ?_, ?_, ?_⟩ <;>
    simp [Interval.closed, Interval.open', Interval.new, Interval.normalize,
      keyLt, Bound.cmp_key, Bound.closed, Bound.open', Interval.contains,
      leftOk, rightOk, hn, h, lt_irrefl]

/-- C6 witness: endpoint membership at the concrete interval from 0 to 1. -/
theorem C6_endpoint_membership_witness :
    (Interval.closed 0 1).contains (.finite 0) = true
    ∧ (Interval.closed 0 1).contains (.finite 1) = true
    ∧ (Interval.open' 0 1).contains (.finite 0) = false
    ∧ (Interval.open' 0 1).contains (.finite 1) = false :=
  C6_endpoint_membership 0 1 (by norm_num)

/-- C7: contains rejects every non-finite probe, whatever the interval. -/
theorem C7_contains_nonfinite (I : Interval) :
    I.contains .nan = false ∧ I.contains .posInf = false
      ∧ I.contains .negInf = false :=
  ⟨rfl, rfl, rfl⟩

/-- C9: the checked constructor fails exactly on mismatched lengths and
otherwise keeps the slices; the truncating constructor is total and cuts
both inputs to the shorter length. -/
theorem C9_columnar_constructors (xs ys : List F64) :
    (ColumnarSeries.new xs ys = none ↔ xs.length ≠ ys.length)
    ∧ (xs.length = ys.length → ColumnarSeries.new xs ys = some ⟨xs, ys⟩)
    ∧ ColumnarSeries.new_truncating xs ys =
        ⟨xs.take (Nat.min xs.length ys.length),
         ys.take (Nat.min xs.length ys.length)⟩
    ∧ (ColumnarSeries.new_truncating xs ys).xs.length
        = Nat.min xs.length ys.length
    ∧ (ColumnarSeries.new_truncating xs ys).ys.length
        = Nat.min xs.length ys.length := by
  refine ⟨?_, ?_, rfl, ?_, ?_⟩
  · unfold ColumnarSeries.new
    split <;> simp_all
  · intro h
    simp [ColumnarSeries.new, h]
  · simp only [ColumnarSeries.new_truncating, List.length_take]
    exact Nat.min_eq_left (Nat.min_le_left _ _)
  · simp only [ColumnarSeries.new_truncating, List.length_take]
    exact Nat.min_eq_left (Nat.min_le_right _ _)

/-- C9 witness: mismatched lengths fail, matched lengths succeed, and the
truncating constructor cuts to the shorter input. -/
theorem C9_columnar_constructors_witness :
    ColumnarSeries.new [F64.finite 0] [] = none
    ∧ ColumnarSeries.new [F64.finite 0] [F64.finite 1]
        = some ⟨[F64.finite 0], [F64.finite 1]⟩
    ∧ (ColumnarSeries.new_truncating [F64.finite 0, F64.finite 2] [F64.finite 1]).xs.length
        = Nat.min 2 1 :=
  ⟨(C9_columnar_constructors [F64.finite 0] []).1.mpr (by decide),
   (C9_columnar_constructors [F64.finite 0] [F64.finite 1]).2.1 rfl,
   by
    have h := (C9_columnar_constructors [F64.finite 0, F64.finite 2] [F64.finite 1]).2.2.2.1
    simpa using h⟩

/-- C1: draining the queue SetBoundsX, AddItem, Translate yields final
auto-bounds both false, exactly the one item, exactly one BoundsChanged
event with cause Programmatic coming from the SetBoundsX action, and the
Translate action produces no direct event. -/
theorem C1_drain_setx_additem_translate (I S : Type) (X : I) (bounds : PlotBounds)
    (ab : Bool × Bool) :
    (let r := ActionExecutor.apply
        (ActionQueue.mk ([PlotAction.SetBoundsX (0, 10), PlotAction.AddItem X,
          PlotAction.Translate (1, 0)] : List (PlotAction I S))) bounds ab none none
     r.auto_bounds = (false, false) ∧ r.items = [X]
       ∧ r.events = [PlotEvent.BoundsChanged PlotBounds.NOTHING
           ⟨(.finite 0, .negInf), (.finite 10, .posInf)⟩ .Programmatic]
       ∧ r.events = [(PlotAction.SetBoundsX (0, 10) : PlotAction I S).as_event.getD
           (PlotEvent.AutoFitApplied PlotBounds.NOTHING)])
    ∧ (PlotAction.Translate (1, 0) : PlotAction I S).as_event = none :=
  ⟨⟨rfl, rfl, rfl, rfl⟩, rfl⟩

/-- C3: as_event yields the Programmatic BoundsChanged with sentinel old
bounds and the untouched axis at the infinities for the two range setters,
and none for every other action variant. -/
theorem C3_as_event_cases (I S : Type) :
    (∀ a b : ℚ, (PlotAction.SetBoundsX (a, b) : PlotAction I S).as_event
      = some (.BoundsChanged PlotBounds.NOTHING
          ⟨(.finite a, .negInf), (.finite b, .posInf)⟩ .Programmatic))
    ∧ (∀ a b : ℚ, (PlotAction.SetBoundsY (a, b) : PlotAction I S).as_event
      = some (.BoundsChanged PlotBounds.NOTHING
          ⟨(.negInf, .finite a), (.posInf, .finite b)⟩ .Programmatic))
    ∧ (∀ d : ℚ × ℚ, (PlotAction.Translate d : PlotAction I S).as_event = none)
    ∧ (∀ f c : ℚ × ℚ, (PlotAction.Zoom f c : PlotAction I S).as_event = none)
    ∧ (∀ v : Bool × Bool, (PlotAction.SetAutoBounds v : PlotAction I S).as_event = none)
    ∧ (∀ s : S, (PlotAction.AddOverlayShape s : PlotAction I S).as_event = none)
    ∧ (∀ x : I, (PlotAction.AddItem x : PlotAction I S).as_event = none) :=
  ⟨fun _ _ => rfl, fun _ _ => rfl, fun _ => rfl, fun _ _ => rfl,
   fun _ => rfl, fun _ => rfl, fun _ => rfl⟩

/-- How one action updates the auto-bounds flags in the reducer loop. -/
def abStep {I S : Type} : Bool × Bool → PlotAction I S → Bool × Bool
  | ab, .AddItem _ => ab
  | ab, .SetBoundsX _ => (false, ab.2)
  | ab, .SetBoundsY _ => (ab.1, false)
  | _, .Translate _ => (false, false)
  | _, .SetAutoBounds v => v
  | _, .Zoom _ _ => (false, false)
  | ab, .AddOverlayShape _ => ab

/-- Whether an action belongs to the bounds-affecting category of the
spec's phase list (everything except AddItem and AddOverlayShape). -/
def boundsAffecting {I S : Type} : PlotAction I S → Bool
  | .SetBoundsX _ => true
  | .SetBoundsY _ => true
  | .Translate _ => true
  | .SetAutoBounds _ => true
  | .Zoom _ _ => true
  | .AddItem _ => false
  | .AddOverlayShape _ => false

/-- The auto-bounds component of the reducer loop is the fold of the
per-action flag update over the queue. -/
lemma applyGo_auto_bounds {I S B : Type} [BoundsLike B] (l : List (PlotAction I S))
    (bounds : B) (ab : Bool × Bool) (items : List I) (overlays : List S)
    (events : List PlotEvent) :
    (ActionExecutor.applyGo l bounds ab items overlays events).auto_bounds
      = l.foldl abStep ab := by
  induction l generalizing bounds ab items overlays events with
  | nil => rfl
  | cons a rest ih =>
    cases a <;> simp [ActionExecutor.applyGo, abStep, ih]

/-- Actions outside the bounds-affecting category leave the flags alone. -/
lemma foldl_abStep_of_not_affecting {I S : Type} (l : List (PlotAction I S))
    (hl : ∀ a ∈ l, boundsAffecting a = false) (ab : Bool × Bool) :
    l.foldl abStep ab = ab := by
  induction l generalizing ab with
  | nil => rfl
  | cons a rest ih =>
    have ha := hl a (List.mem_cons_self a rest)
    have hrest : ∀ x ∈ rest, boundsAffecting x = false :=
      fun x hx => hl x (List.mem_cons_of_mem a hx)
    cases a <;> simp [boundsAffecting] at ha <;>
      simp [List.foldl_cons, abStep, ih hrest]

/-- C2: with SetAutoBounds (true, true) followed, possibly at a distance,
by a single range-set action and no other bounds-affecting action after
it, only the acted-upon axis flag is disabled: SetBoundsX leaves
(false, true) and SetBoundsY leaves (true, false). -/
theorem C2_range_set_disables_one_axis {I S B : Type} [BoundsLike B]
    (pre mid post : List (PlotAction I S))
    (hmid : ∀ a ∈ mid, boundsAffecting a = false)
    (hpost : ∀ a ∈ post, boundsAffecting a = false)
    (a b : ℚ) (bounds : B) (ab : Bool × Bool) :
    (ActionExecutor.apply
        (ActionQueue.mk (pre ++ PlotAction.SetAutoBounds (true, true)
          :: (mid ++ PlotAction.SetBoundsX (a, b) :: post)))
        bounds ab none none).auto_bounds = (false, true)
    ∧ (ActionExecutor.apply
        (ActionQueue.mk (pre ++ PlotAction.SetAutoBounds (true, true)
          :: (mid ++ PlotAction.SetBoundsY (a, b) :: post)))
        bounds ab none none).auto_bounds = (true, false) := by
  constructor <;>
  · rw [ActionExecutor.apply, ActionQueue.drain, applyGo_auto_bounds,
      List.foldl_append, List.foldl_cons, List.foldl_append, List.foldl_cons,
      foldl_abStep_of_not_affecting mid hmid, foldl_abStep_of_not_affecting post hpost]
    rfl

/-- C2 witness: a concrete queue with an item between the two flag
mutations and an overlay after the range set. -/
theorem C2_range_set_disables_one_axis_witness :
    (ActionExecutor.apply (B := PlotBounds)
        (ActionQueue.mk ([] ++ PlotAction.SetAutoBounds (true, true)
          :: ([PlotAction.AddItem ()] ++ PlotAction.SetBoundsX (0, 1)
            :: [PlotAction.AddOverlayShape ()])))
        PlotBounds.NOTHING (true, true) none none).auto_bounds = (false, true) :=
  (C2_range_set_disables_one_axis [] [PlotAction.AddItem ()]
    [PlotAction.AddOverlayShape ()]
    (by intro x hx; simp at hx; subst hx; rfl)
    (by intro x hx; simp at hx; subst hx; rfl)
    0 1 PlotBounds.NOTHING (true, true)).1

/-- Adding two exact finite deltas one after the other is the same as
adding their sum. -/
lemma F64.add_finite_finite (x : F64) (p q : ℚ) :
    (x.add (.finite p)).add (.finite q) = x.add (.finite (p + q)) := by
  cases x <;> simp [F64.add]
  ring

/-- C8: two consecutive Translate actions move the bounds exactly as the
single Translate by the componentwise sum of the deltas, for any starting
bounds and flags. -/
theorem C8_translate_additive (I S : Type) (d1 d2 : ℚ × ℚ) (bounds : PlotBounds)
    (ab : Bool × Bool) :
    (ActionExecutor.apply
        (ActionQueue.mk ([PlotAction.Translate d1, PlotAction.Translate d2]
          : List (PlotAction I S)))
        bounds ab none none).bounds
      = (ActionExecutor.apply
          (ActionQueue.mk [(PlotAction.Translate (d1.1 + d2.1, d1.2 + d2.2)
            : PlotAction I S)])
          bounds ab none none).bounds := by
  show ((bounds.translate (.finite d1.1, .finite d1.2)).translate
      (.finite d2.1, .finite d2.2))
    = bounds.translate (.finite (d1.1 + d2.1), .finite (d1.2 + d2.2))
  simp [PlotBounds.translate, F64.add_finite_finite]

/-- Contains on a finite probe decomposes into the two endpoint tests. -/
lemma contains_finite (I : Interval) (x : ℚ) :
    I.contains (.finite x) = (leftOk I.start x && rightOk I.end_ x) :=
  rfl

/-- Unfolding of the key order into its lexicographic proposition. -/
lemma keyLe_elim {a b : CmpKey} (h : keyLe a b = true) :
    a.sign < b.sign ∨ (a.sign = b.sign
      ∧ (a.value < b.value ∨ (a.value = b.value ∧ a.closed ≤ b.closed))) := by
  simp only [keyLe, Bool.or_eq_true, Bool.and_eq_true, decide_eq_true_eq,
    beq_iff_eq] at h
  exact h

/-- The key order is total. -/
lemma keyLe_total (k1 k2 : CmpKey) : keyLe k1 k2 = true ∨ keyLe k2 k1 = true := by
  simp only [keyLe, Bool.or_eq_true, Bool.and_eq_true, decide_eq_true_eq, beq_iff_eq]
  rcases lt_trichotomy k1.sign k2.sign with h | h | h
  · exact Or.inl (Or.inl h)
  · rcases lt_trichotomy k1.value k2.value with h2 | h2 | h2
    · exact Or.inl (Or.inr ⟨h, Or.inl h2⟩)
    · rcases le_total k1.closed k2.closed with h3 | h3
      · exact Or.inl (Or.inr ⟨h, Or.inr ⟨h2, h3⟩⟩)
      · exact Or.inr (Or.inr ⟨h.symm, Or.inr ⟨h2.symm, h3⟩⟩)
    · exact Or.inr (Or.inr ⟨h.symm, Or.inl h2⟩)
  · exact Or.inr (Or.inl h)

/-- A key-smaller start bound admits every point the key-larger one does,
except in the single case of a finite open bound against a finite closed
bound at the same value probed exactly at that value. -/
lemma leftOk_of_keyLe (b1 b2 : Bound) (x : ℚ)
    (h : keyLe b1.cmp_key b2.cmp_key = true) (h2 : leftOk b2 x = true) :
    leftOk b1 x = true ∨ (b1 = .Finite x .Open ∧ b2 = .Finite x .Closed) := by
  cases b1 with
  | NegInf => exact Or.inl rfl
  | PosInf =>
    cases b2 with
    | NegInf => simp [keyLe, Bound.cmp_key] at h
    | PosInf => simp [leftOk] at h2
    | Finite v2 k2 => cases k2 <;> simp [keyLe, Bound.cmp_key] at h
  | Finite v1 k1 =>
    cases b2 with
    | NegInf => cases k1 <;> simp [keyLe, Bound.cmp_key] at h
    | PosInf => simp [leftOk] at h2
    | Finite v2 k2 =>
      have h' := keyLe_elim h
      cases k1 with
      | Open =>
        cases k2 with
        | Open =>
          simp only [Bound.cmp_key] at h'
          simp only [leftOk, decide_eq_true_eq] at h2 ⊢
          rcases h' with h' | ⟨-, h' | ⟨h', -⟩⟩
          · norm_num at h'
          · exact Or.inl (by linarith)
          · exact Or.inl (by linarith)
        | Closed =>
          simp only [Bound.cmp_key] at h'
          simp only [leftOk, decide_eq_true_eq] at h2 ⊢
          rcases h' with h' | ⟨-, h' | ⟨h', -⟩⟩
          · norm_num at h'
          · exact Or.inl (by linarith)
          · rcases lt_or_eq_of_le h2 with h3 | h3
            · exact Or.inl (by linarith)
            · exact Or.inr ⟨by rw [h', h3], by rw [h3]⟩
      | Closed =>
        cases k2 with
        | Open =>
          simp only [Bound.cmp_key] at h'
          simp only [leftOk, decide_eq_true_eq] at h2 ⊢
          rcases h' with h' | ⟨-, h' | ⟨-, h'⟩⟩
          · norm_num at h'
          · exact Or.inl (by linarith)
          · norm_num at h'
        | Closed =>
          simp only [Bound.cmp_key] at h'
          simp only [leftOk, decide_eq_true_eq] at h2 ⊢
          rcases h' with h' | ⟨-, h' | ⟨h', -⟩⟩
          · norm_num at h'
          · exact Or.inl (by linarith)
          · exact Or.inl (by linarith)

/-- A key-larger end bound admits every point the key-smaller one does. -/
lemma rightOk_of_keyLe (e1 e2 : Bound) (x : ℚ)
    (h : keyLe e1.cmp_key e2.cmp_key = true) (h2 : rightOk e1 x = true) :
    rightOk e2 x = true := by
  cases e2 with
  | PosInf => rfl
  | NegInf =>
    cases e1 with
    | NegInf => simp [rightOk] at h2
    | PosInf => simp [keyLe, Bound.cmp_key] at h
    | Finite v1 k1 => cases k1 <;> simp [keyLe, Bound.cmp_key] at h
  | Finite v2 k2 =>
    cases e1 with
    | NegInf => simp [rightOk] at h2
    | PosInf => cases k2 <;> simp [keyLe, Bound.cmp_key] at h
    | Finite v1 k1 =>
      have h' := keyLe_elim h
      cases k1 with
      | Open =>
        cases k2 with
        | Open =>
          simp only [Bound.cmp_key] at h'
          simp only [rightOk, decide_eq_true_eq] at h2 ⊢
          rcases h' with h' | ⟨-, h' | ⟨h', -⟩⟩
          · norm_num at h'
          · linarith
          · linarith
        | Closed =>
          simp only [Bound.cmp_key] at h'
          simp only [rightOk, decide_eq_true_eq] at h2 ⊢
          rcases h' with h' | ⟨-, h' | ⟨h', -⟩⟩
          · norm_num at h'
          · linarith
          · linarith
      | Closed =>
        cases k2 with
        | Open =>
          simp only [Bound.cmp_key] at h'
          simp only [rightOk, decide_eq_true_eq] at h2 ⊢
          rcases h' with h' | ⟨-, h' | ⟨-, h'⟩⟩
          · norm_num at h'
          · linarith
          · norm_num at h'
        | Closed =>
          simp only [Bound.cmp_key] at h'
          simp only [rightOk, decide_eq_true_eq] at h2 ⊢
          rcases h' with h' | ⟨-, h' | ⟨h', -⟩⟩
          · norm_num at h'
          · linarith
          · linarith

/-- The start bound `intersect` selects: the key-maximal of the two
normalized starts. -/
def startSel (A B : Interval) : Bound :=
  if keyLe B.start.cmp_key A.start.cmp_key then A.start else B.start

/-- The end bound `intersect` selects: the key-minimal of the two
normalized ends. -/
def endSel (A B : Interval) : Bound :=
  if keyLe A.end_.cmp_key B.end_.cmp_key then A.end_ else B.end_

/-- On normalized operands, `intersect` is the emptiness-guarded interval
of the selected bounds. -/
lemma intersect_eq_of_norm (A B : Interval) (hA : A.normalize = A)
    (hB : B.normalize = B) :
    A.intersect B = if (⟨startSel A B, endSel A B⟩ : Interval).is_empty then none
      else some ⟨startSel A B, endSel A B⟩ := by
  simp only [Interval.intersect, hA, hB, startSel, endSel]

/-- A point admitted by both starts is admitted by the selected start. -/
lemma startSel_ok_of_both {A B : Interval} {x : ℚ}
    (h1 : leftOk A.start x = true) (h2 : leftOk B.start x = true) :
    leftOk (startSel A B) x = true := by
  unfold startSel
  split <;> assumption

/-- A point admitted by both ends is admitted by the selected end. -/
lemma endSel_ok_of_both {A B : Interval} {x : ℚ}
    (h1 : rightOk A.end_ x = true) (h2 : rightOk B.end_ x = true) :
    rightOk (endSel A B) x = true := by
  unfold endSel
  split <;> assumption

/-- Whether the two intervals have finite start bounds at the same value
with different end kinds — the one shape on which the key-maximal start is
not the pointwise most restrictive one. -/
def sameStartClash (A B : Interval) : Bool :=
  match A.start, B.start with
  | .Finite v1 k1, .Finite v2 k2 => v1 == v2 && !(k1 == k2)
  | _, _ => false

/-- Without a start clash, a point admitted by the selected start is
admitted by both starts. -/
lemma both_ok_of_startSel {A B : Interval} {x : ℚ}
    (hcl : sameStartClash A B = false) (h : leftOk (startSel A B) x = true) :
    leftOk A.start x = true ∧ leftOk B.start x = true := by
  unfold startSel at h
  split at h
  next hs =>
    refine ⟨h, ?_⟩
    rcases leftOk_of_keyLe B.start A.start x hs h with h' | ⟨hB', hA'⟩
    · exact h'
    · rw [sameStartClash, hA', hB'] at hcl
      simp at hcl
  next hs =>
    have hs' : keyLe A.start.cmp_key B.start.cmp_key = true := by
      rcases keyLe_total A.start.cmp_key B.start.cmp_key with h' | h'
      · exact h'
      · exact absurd h' hs
    refine ⟨?_, h⟩
    rcases leftOk_of_keyLe A.start B.start x hs' h with h' | ⟨hA', hB'⟩
    · exact h'
    · rw [sameStartClash, hA', hB'] at hcl
      simp at hcl

/-- A point admitted by the selected end is admitted by both ends. -/
lemma both_ok_of_endSel {A B : Interval} {x : ℚ}
    (h : rightOk (endSel A B) x = true) :
    rightOk A.end_ x = true ∧ rightOk B.end_ x = true := by
  unfold endSel at h
  split at h
  next ht => exact ⟨h, rightOk_of_keyLe A.end_ B.end_ x ht h⟩
  next ht =>
    have ht' : keyLe B.end_.cmp_key A.end_.cmp_key = true := by
      rcases keyLe_total A.end_.cmp_key B.end_.cmp_key with h' | h'
      · exact absurd h' ht
      · exact h'
    exact ⟨rightOk_of_keyLe B.end_ A.end_ x ht' h, h⟩

/-- C10 counterexample: intersecting the half-open interval from 1
(excluded) to 2 with the closed interval from 1 to 2 returns the closed
interval, which contains 1 although the half-open operand does not. -/
theorem C10_intersect_contains_counterexample :
    (Interval.open_closed 1 2).intersect (Interval.closed 1 2)
      = some (Interval.closed 1 2)
    ∧ (Interval.closed 1 2).contains (.finite 1) = true
    ∧ ((Interval.open_closed 1 2).contains (.finite 1)
        && (Interval.closed 1 2).contains (.finite 1)) = false := by
  decide

/-- C10 (amended): for normalized operands and a finite probe, a point of
both operands is always in the returned intersection, a `none` result
means the operands share no finite point, and the full pointwise
equivalence holds whenever the two start bounds are not finite bounds at
the same value with different end kinds (in that clash case the key-maximal
— closed — start is selected and the returned interval may contain that
shared endpoint although one operand excludes it). -/
theorem C10_intersect_contains_amended (A B : Interval) (x : ℚ)
    (hA : A.normalize = A) (hB : B.normalize = B) :
    (∀ C, A.intersect B = some C →
      (((A.contains (.finite x) && B.contains (.finite x)) = true →
          C.contains (.finite x) = true)
        ∧ (sameStartClash A B = false →
            C.contains (.finite x)
              = (A.contains (.finite x) && B.contains (.finite x)))))
    ∧ (A.intersect B = none →
        (A.contains (.finite x) && B.contains (.finite x)) = false) := by
  have hI := intersect_eq_of_norm A B hA hB
  constructor
  · intro C hC
    rw [hI] at hC
    cases he : Interval.is_empty ⟨startSel A B, endSel A B⟩ with
    | true => rw [he] at hC; simp at hC
    | false =>
      rw [he] at hC
      simp only [Bool.false_eq_true, if_false, Option.some.injEq] at hC
      subst hC
      constructor
      · intro hab
        simp only [contains_finite, Bool.and_eq_true] at hab ⊢
        obtain ⟨⟨hal, har⟩, ⟨hbl, hbr⟩⟩ := hab
        exact ⟨startSel_ok_of_both hal hbl, endSel_ok_of_both har hbr⟩
      · intro hcl
        cases h1 : ((⟨startSel A B, endSel A B⟩ : Interval).contains (.finite x)) with
        | true =>
          have h1' := h1
          simp only [contains_finite, Bool.and_eq_true] at h1'
          obtain ⟨hl, hr⟩ := h1'
          obtain ⟨hal, hbl⟩ := both_ok_of_startSel hcl hl
          obtain ⟨har, hbr⟩ := both_ok_of_endSel hr
          have hT : (A.contains (.finite x) && B.contains (.finite x)) = true := by
            simp only [contains_finite, Bool.and_eq_true]
            exact ⟨⟨hal, har⟩, ⟨hbl, hbr⟩⟩
          exact hT.symm
        | false =>
          cases h2 : (A.contains (.finite x) && B.contains (.finite x)) with
          | false => rfl
          | true =>
            exfalso
            simp only [contains_finite, Bool.and_eq_true] at h2
            obtain ⟨⟨hal, har⟩, ⟨hbl, hbr⟩⟩ := h2
            have hT : (leftOk (startSel A B) x && rightOk (endSel A B) x) = true := by
              rw [Bool.and_eq_true]
              exact ⟨startSel_ok_of_both hal hbl, endSel_ok_of_both har hbr⟩
            rw [contains_finite, hT] at h1
            exact absurd h1 (by simp)
  · intro hnone
    rw [hI] at hnone
    cases he : Interval.is_empty ⟨startSel A B, endSel A B⟩ with
    | false => rw [he] at hnone; simp at hnone
    | true =>
      cases h2 : (A.contains (.finite x) && B.contains (.finite x)) with
      | false => rfl
      | true =>
        exfalso
        simp only [contains_finite, Bool.and_eq_true] at h2
        obtain ⟨⟨hal, har⟩, ⟨hbl, hbr⟩⟩ := h2
        have := is_empty_false_of_ok (startSel A B) (endSel A B) x
          (startSel_ok_of_both hal hbl) (endSel_ok_of_both har hbr)
        rw [this] at he
        exact absurd he (by simp)

/-- C10 amended witness: at the closed intervals from 0 to 1 and 0 to 2
the intersection result contains 0 exactly as both operands do. -/
theorem C10_intersect_contains_amended_witness :
    (Interval.closed 0 1).contains (.finite 0)
      = ((Interval.closed 0 1).contains (.finite 0)
          && (Interval.closed 0 2).contains (.finite 0)) :=
  ((C10_intersect_contains_amended (Interval.closed 0 1) (Interval.closed 0 2) 0
      (by decide) (by decide)).1 (Interval.closed 0 1) (by decide)).2 (by decide)

end EguiPlot
